import Mathlib

/-!
Verification of the Eureka! Stage-5 light-curve-fitting driver and its
path utilities, as a shallow embedding in Lean.

Embedded source files:
* `src/eureka/S5_lightcurve_fitting/s5_fit.py` — `make_longparamlist`,
  `fit_channel`'s fitter dispatch, the shared-mode flux flattening of
  `fitJWST`, and `read_s4_meta`.
* `src/eureka/lib/util.py` — `check_nans`, `makedirectory`, `pathdirectory`.

Python strings that are manipulated character by character (directory
paths) are embedded as `List Char`; machine floats are embedded as `ℚ`
(plus an explicit NaN marker where NaN handling is the point); Python
exceptions are embedded with `Except`.
-/

namespace Eureka

/-! ### Decimal rendering of counters: `str(n)` / `Nat.repr`

The Python code builds names such as `rp_1` and `..._run2` with `str(n)`.
The embedding uses `Nat.repr`.  Distinctness of such names needs
injectivity of the decimal rendering, proved here by exhibiting a decoder.
-/

/-- Decoder for decimal digit strings: folds characters as base-10 digits. -/
def decodeDigits (l : List Char) : Nat :=
  l.foldl (fun acc c => 10 * acc + (c.toNat - 48)) 0

theorem digitChar_toNat_eq : ∀ d : Nat, d < 10 → (Nat.digitChar d).toNat = 48 + d := by
  decide

theorem toDigitsCore_append_eq (f : Nat) :
    ∀ (n : Nat) (ds : List Char),
      Nat.toDigitsCore 10 f n ds = Nat.toDigitsCore 10 f n [] ++ ds := by
  induction f with
  | zero => intro n ds; simp [Nat.toDigitsCore]
  | succ f ih =>
    intro n ds
    simp only [Nat.toDigitsCore]
    by_cases h : n / 10 = 0
    · simp [h]
    · simp only [h, if_false]
      rw [ih (n / 10) (Nat.digitChar (n % 10) :: ds), ih (n / 10) [Nat.digitChar (n % 10)]]
      simp

theorem decodeDigits_append_singleton (l : List Char) (c : Char) :
    decodeDigits (l ++ [c]) = 10 * decodeDigits l + (c.toNat - 48) := by
  simp [decodeDigits, List.foldl_append]

theorem decodeDigits_toDigitsCore :
    ∀ (f n : Nat), n < f → decodeDigits (Nat.toDigitsCore 10 f n []) = n := by
  intro f
  induction f with
  | zero => intro n hn; omega
  | succ f ih =>
    intro n hn
    simp only [Nat.toDigitsCore]
    by_cases h : n / 10 = 0
    · have hn10 : n < 10 := by
        rcases Nat.eq_zero_or_pos n with h0 | hp
        · omega
        · exact (Nat.div_eq_zero_iff (by norm_num)).mp h
      have hmod : n % 10 = n := Nat.mod_eq_of_lt hn10
      simp only [h, if_true, decodeDigits, List.foldl]
      rw [hmod, digitChar_toNat_eq n hn10]
      omega
    · have hnpos : 0 < n := by
        rcases Nat.eq_zero_or_pos n with h0 | hp
        · exfalso; apply h; rw [h0]
        · exact hp
      have hdiv : n / 10 < n := Nat.div_lt_self hnpos (by norm_num)
      simp only [h, if_false]
      rw [toDigitsCore_append_eq, decodeDigits_append_singleton, ih (n / 10) (by omega),
        digitChar_toNat_eq (n % 10) (Nat.mod_lt n (by norm_num))]
      omega

theorem decodeDigits_toDigits (n : Nat) : decodeDigits (Nat.toDigits 10 n) = n := by
  simpa [Nat.toDigits] using decodeDigits_toDigitsCore (n + 1) n (Nat.lt_succ_self n)

/-- Decimal rendering of naturals is injective (at the character-list level). -/
theorem toDigits_injective : Function.Injective (Nat.toDigits 10) := by
  intro a b h
  have := congrArg decodeDigits h
  rwa [decodeDigits_toDigits, decodeDigits_toDigits] at this

/-- Decimal rendering of naturals is injective (at the `String` level). -/
theorem repr_injective : Function.Injective Nat.repr := by
  intro a b h
  have hd : Nat.toDigits 10 a = Nat.toDigits 10 b := congrArg String.data h
  exact toDigits_injective hd

theorem repr_data_eq (n : Nat) : (Nat.repr n).data = Nat.toDigits 10 n := rfl

/-! ### The parameter expander: `make_longparamlist` (s5_fit.py lines 244-267)

A parameter's declaration.  Modelled from the spec: the `Parameters` class
(`eureka.lib.readEPF` / `S5_lightcurve_fitting.parameters`) is not under
`src/`; per spec section 3 a parameter is a name with a value, a kind among
fixed / free / shared / independent, and optional prior bounds.  The Python
membership tests `'free' in params.dict[param]` / `'shared' in ...` test the
kind recorded in the parameter's entry, embedded here as a `kind` field.
-/

inductive ParamKind
  | free
  | shared
  | fixed
  | independent
deriving DecidableEq, Repr

/-- Value, kind, and optional prior bounds of one declared parameter.
Modelled from the spec: the parameter record held in `params.dict`. -/
structure Param where
  value : ℚ
  kind : ParamKind
  priorLo : Option ℚ
  priorHi : Option ℚ
deriving DecidableEq, Repr

/-- A `Parameters` object.  `dict` is the ordered name-to-record mapping the
expander iterates over (`tlist = list(params.dict.keys())`).  Modelled from
the spec: `Parameters.__setattr__` is not under `src/`; per spec section 4.1
the per-channel copies the expander synthesizes are materialized lazily —
only when first referenced — so they are recorded in `pending` and do not
enter the `dict` iteration order. -/
structure Parameters where
  dict : List (String × Param)
  pending : List (String × Param)
deriving DecidableEq, Repr

/-- Python exceptions that the embedded code can raise. -/
inductive PyErr
  | indexError
  | assertionError
deriving DecidableEq, Repr

/-- Embedding of `longparamlist[i].append(s)`: out-of-range indexing raises
`IndexError`, otherwise slot `i` is extended in place. -/
def appendAt (lpl : List (List String)) (i : Nat) (s : String) :
    Except PyErr (List (List String)) :=
  if i < lpl.length then .ok (lpl.set i (lpl.getD i [] ++ [s])) else .error .indexError

/-- Embedding of the inner loop of the `free` branch of `make_longparamlist`:
`for c in np.arange(nspecchan-1): title = param+'_'+str(c+1);
params.__setattr__(title, params.dict[param]); longparamlist[c+1].append(title)`.
`k` is the number of iterations left and `c` the current loop index. -/
def freeLoop (param : String) (v : Param) :
    Nat → Nat → List (List String) × List (String × Param) →
    Except PyErr (List (List String) × List (String × Param))
  | 0, _, st => .ok st
  | k + 1, c, st => do
    let title := param ++ "_" ++ Nat.repr (c + 1)
    let lpl ← appendAt st.1 (c + 1) title
    freeLoop param v k (c + 1) (lpl, st.2 ++ [(title, v)])

/-- Embedding of `for c in np.arange(nspecchan): longparamlist[c].append(param)`,
the body of both the `shared` branch and the final `else` branch. -/
def allChanLoop (param : String) : Nat → Nat → List (List String) →
    Except PyErr (List (List String))
  | 0, _, lpl => .ok lpl
  | k + 1, c, lpl => do
    let lpl ← appendAt lpl c param
    allChanLoop param k (c + 1) lpl

/-- Embedding of one iteration of the `for param in tlist` loop of
`make_longparamlist`: the `free` branch, the `shared` branch, and the
final `else` branch (fixed / independent). -/
def processParam (nspec : Nat) (st : List (List String) × List (String × Param))
    (pv : String × Param) : Except PyErr (List (List String) × List (String × Param)) :=
  if pv.2.kind = .free then do
    let lpl ← appendAt st.1 0 pv.1
    freeLoop pv.1 pv.2 (nspec - 1) 0 (lpl, st.2)
  else if pv.2.kind = .shared then do
    let lpl ← allChanLoop pv.1 nspec 0 st.1
    pure (lpl, st.2)
  else do
    let lpl ← allChanLoop pv.1 nspec 0 st.1
    pure (lpl, st.2)

/-- Embedding of `make_longparamlist(meta, params)` (s5_fit.py lines 244-267).
`sharedp` and `nspecchan` are the `meta` attributes the function reads.
Returns the long parameter list, `paramtitles` (which the source reads as
`longparamlist[0]`, an `IndexError` when there are zero channels), and the
updated `Parameters` object. -/
def make_longparamlist (sharedp : Bool) (nspecchan : Nat) (params : Parameters) :
    Except PyErr (List (List String) × List String × Parameters) := do
  let nspec := if sharedp then nspecchan else 1
  let st ← params.dict.foldlM (processParam nspec) (List.replicate nspec [], params.pending)
  match st.1 with
  | [] => .error .indexError
  | titles :: _ => .ok (st.1, titles, ⟨params.dict, st.2⟩)

/-! ### Pointwise characterizations of the expander loops -/

theorem getD_set_self {α : Type} (l : List α) (i : Nat) (a d : α) (h : i < l.length) :
    (l.set i a).getD i d = a := by
  rw [List.getD_eq_getElem _ d (by simpa using h)]
  exact List.getElem_set_self _

theorem getD_set_other {α : Type} (l : List α) (i j : Nat) (a d : α) (h : i ≠ j) :
    (l.set i a).getD j d = l.getD j d := by
  by_cases hj : j < l.length
  · rw [List.getD_eq_getElem _ d (by simpa using hj), List.getD_eq_getElem _ d hj]
    exact List.getElem_set_ne h _
  · rw [List.getD_eq_default _ d (by simpa using Nat.le_of_not_lt hj),
      List.getD_eq_default _ d (Nat.le_of_not_lt hj)]

theorem eq_replicate_of_getD {α : Type} (d : α) :
    ∀ (l : List α) (n : Nat) (a : α), l.length = n → (∀ i, i < n → l.getD i d = a) →
      l = List.replicate n a := by
  intro l n a hlen h
  apply List.ext_getElem (by simpa using hlen)
  intro i h1 h2
  rw [← List.getD_eq_getElem l d h1, List.getElem_replicate]
  exact h i (by omega)

theorem appendAt_ok (lpl : List (List String)) (i : Nat) (s : String) (h : i < lpl.length) :
    appendAt lpl i s = .ok (lpl.set i (lpl.getD i [] ++ [s])) := by
  simp [appendAt, h]

theorem range_map_shift (param : String) (v : Param) (c k : Nat) :
    (List.range (k + 1)).map (fun j => (param ++ "_" ++ Nat.repr (c + 1 + j), v)) =
      (param ++ "_" ++ Nat.repr (c + 1), v) ::
        (List.range k).map (fun j => (param ++ "_" ++ Nat.repr (c + 1 + 1 + j), v)) := by
  rw [List.range_succ_eq_map, List.map_cons, List.map_map]
  congr 1
  apply List.map_congr_left
  intro j _
  simp only [Function.comp_apply, Nat.succ_eq_add_one]
  rw [show c + 1 + (j + 1) = c + 1 + 1 + j by omega]

/-- What the `free`-branch inner loop does: slots `c+1 .. c+k` each receive the
channel-suffixed name, everything else is untouched, and the synthesized
copies are appended to `pending` in loop order. -/
theorem freeLoop_ok (param : String) (v : Param) :
    ∀ (k c : Nat) (lpl : List (List String)) (pend : List (String × Param)),
      c + 1 + k ≤ lpl.length →
      ∃ lpl', freeLoop param v k c (lpl, pend) =
          .ok (lpl', pend ++ (List.range k).map
            (fun j => (param ++ "_" ++ Nat.repr (c + 1 + j), v))) ∧
        lpl'.length = lpl.length ∧
        ∀ i, lpl'.getD i [] =
          if c + 1 ≤ i ∧ i < c + 1 + k then lpl.getD i [] ++ [param ++ "_" ++ Nat.repr i]
          else lpl.getD i [] := by
  intro k
  induction k with
  | zero =>
    intro c lpl pend _
    refine ⟨lpl, ?_, rfl, ?_⟩
    · simp [freeLoop]
    · intro i
      rw [if_neg (by omega)]
  | succ k ih =>
    intro c lpl pend hc
    have hlt : c + 1 < lpl.length := by omega
    have hstep : freeLoop param v (k + 1) c (lpl, pend) =
        freeLoop param v k (c + 1)
          (lpl.set (c + 1) (lpl.getD (c + 1) [] ++ [param ++ "_" ++ Nat.repr (c + 1)]),
           pend ++ [(param ++ "_" ++ Nat.repr (c + 1), v)]) := by
      simp only [freeLoop]
      rw [appendAt_ok lpl (c + 1) _ hlt]
      rfl
    obtain ⟨lpl', h1, h2, h3⟩ := ih (c + 1)
      (lpl.set (c + 1) (lpl.getD (c + 1) [] ++ [param ++ "_" ++ Nat.repr (c + 1)]))
      (pend ++ [(param ++ "_" ++ Nat.repr (c + 1), v)]) (by rw [List.length_set]; omega)
    rw [List.length_set] at h2
    refine ⟨lpl', ?_, by omega, ?_⟩
    · rw [hstep, h1, range_map_shift param v c k]
      simp [List.append_assoc]
    · intro i
      rw [h3 i]
      by_cases hi : i = c + 1
      · subst hi
        have h1 : ¬(c + 1 + 1 ≤ c + 1 ∧ c + 1 < c + 1 + 1 + k) := by omega
        have h2 : c + 1 ≤ c + 1 ∧ c + 1 < c + 1 + (k + 1) := by omega
        simp only [h1, if_false, h2, if_true]
        exact getD_set_self lpl (c + 1) _ [] hlt
      · rw [getD_set_other lpl (c + 1) i _ [] (fun h => hi h.symm)]
        by_cases hin : c + 1 + 1 ≤ i ∧ i < c + 1 + 1 + k
        · have : c + 1 ≤ i ∧ i < c + 1 + (k + 1) := by omega
          simp [hin, this]
        · have : ¬(c + 1 ≤ i ∧ i < c + 1 + (k + 1)) := by omega
          simp [hin, this]

/-- What the `shared` / `else` branch loop does: slots `c .. c+k-1` each
receive the unchanged base name, everything else is untouched. -/
theorem allChanLoop_ok (param : String) :
    ∀ (k c : Nat) (lpl : List (List String)), c + k ≤ lpl.length →
      ∃ lpl', allChanLoop param k c lpl = .ok lpl' ∧
        lpl'.length = lpl.length ∧
        ∀ i, lpl'.getD i [] =
          if c ≤ i ∧ i < c + k then lpl.getD i [] ++ [param] else lpl.getD i [] := by
  intro k
  induction k with
  | zero =>
    intro c lpl _
    refine ⟨lpl, by simp [allChanLoop], rfl, ?_⟩
    intro i
    rw [if_neg (by omega)]
  | succ k ih =>
    intro c lpl hc
    have hlt : c < lpl.length := by omega
    have hstep : allChanLoop param (k + 1) c lpl =
        allChanLoop param k (c + 1) (lpl.set c (lpl.getD c [] ++ [param])) := by
      simp only [allChanLoop]
      rw [appendAt_ok lpl c _ hlt]
      rfl
    obtain ⟨lpl', h1, h2, h3⟩ := ih (c + 1) (lpl.set c (lpl.getD c [] ++ [param]))
      (by rw [List.length_set]; omega)
    rw [List.length_set] at h2
    refine ⟨lpl', by rw [hstep, h1], by omega, ?_⟩
    intro i
    rw [h3 i]
    by_cases hi : i = c
    · subst hi
      have h1 : ¬(i + 1 ≤ i ∧ i < i + 1 + k) := by omega
      have h2 : i ≤ i ∧ i < i + (k + 1) := by omega
      simp only [h1, if_false, h2, if_true]
      exact getD_set_self lpl i _ [] hlt
    · rw [getD_set_other lpl c i _ [] (fun h => hi h.symm)]
      by_cases hin : c + 1 ≤ i ∧ i < c + 1 + k
      · have : c ≤ i ∧ i < c + (k + 1) := by omega
        simp [hin, this]
      · have : ¬(c ≤ i ∧ i < c + (k + 1)) := by omega
        simp [hin, this]

/-- The name a parameter contributes to channel `i`'s list: free parameters
are channel-suffixed on channels other than 0, everything else keeps its
base name. -/
def chanName (pv : String × Param) (i : Nat) : String :=
  if pv.2.kind = ParamKind.free ∧ i ≠ 0 then pv.1 ++ "_" ++ Nat.repr i else pv.1

/-- The entries a parameter adds to the `Parameters` object: per-channel
copies of a free parameter, nothing otherwise. -/
def pendOf (N : Nat) (pv : String × Param) : List (String × Param) :=
  if pv.2.kind = ParamKind.free then
    (List.range (N - 1)).map (fun j => (pv.1 ++ "_" ++ Nat.repr (j + 1), pv.2))
  else []

/-- Master characterization of the `for param in tlist` fold of
`make_longparamlist` at `N ≥ 1` channels: it succeeds, channel `i` receives
exactly one name per declared parameter (`chanName`), and the synthesized
free-parameter copies accumulate in declaration order. -/
theorem fold_master (N : Nat) (hN : 1 ≤ N) :
    ∀ (d : List (String × Param)) (lpl0 : List (List String)) (pend0 : List (String × Param)),
      lpl0.length = N →
      ∃ lpl', d.foldlM (processParam N) (lpl0, pend0) =
          .ok (lpl', pend0 ++ (d.map (pendOf N)).flatten) ∧
        lpl'.length = N ∧
        ∀ i, i < N → lpl'.getD i [] = lpl0.getD i [] ++ d.map (fun pv => chanName pv i) := by
  intro d
  induction d with
  | nil =>
    intro lpl0 pend0 hlen
    refine ⟨lpl0, ?_, hlen, by simp⟩
    simp only [List.foldlM_nil, List.map_nil, List.flatten_nil, List.append_nil]
    rfl
  | cons pv rest ih =>
    intro lpl0 pend0 hlen
    by_cases hfree : pv.2.kind = ParamKind.free
    · -- free branch: append base name to slot 0, suffixed names to slots 1..N-1
      have h0 : 0 < lpl0.length := by omega
      obtain ⟨lpl1, hf1, hf2, hf3⟩ := freeLoop_ok pv.1 pv.2 (N - 1) 0
        (lpl0.set 0 (lpl0.getD 0 [] ++ [pv.1])) pend0 (by rw [List.length_set]; omega)
      have hstep : processParam N (lpl0, pend0) pv =
          Except.ok (lpl1, pend0 ++ (List.range (N - 1)).map
            (fun j => (pv.1 ++ "_" ++ Nat.repr (0 + 1 + j), pv.2))) := by
        simp only [processParam]
        rw [if_pos hfree, appendAt_ok lpl0 0 pv.1 h0]
        exact hf1
      have hpend : (List.range (N - 1)).map
          (fun j => (pv.1 ++ "_" ++ Nat.repr (0 + 1 + j), pv.2)) = pendOf N pv := by
        simp only [pendOf]
        rw [if_pos hfree]
        apply List.map_congr_left
        intro j _
        rw [show 0 + 1 + j = j + 1 by omega]
      rw [List.length_set] at hf2
      have hlen1 : lpl1.length = N := by omega
      obtain ⟨lpl', h1, h2, h3⟩ := ih lpl1 (pend0 ++ (List.range (N - 1)).map
        (fun j => (pv.1 ++ "_" ++ Nat.repr (0 + 1 + j), pv.2))) hlen1
      refine ⟨lpl', ?_, h2, ?_⟩
      · rw [List.foldlM_cons, hstep]
        exact h1.trans (by rw [List.map_cons, List.flatten_cons, hpend, List.append_assoc])
      · intro i hi
        rw [h3 i hi, hf3 i]
        by_cases hi0 : i = 0
        · subst hi0
          rw [if_neg (by omega), getD_set_self lpl0 0 _ [] h0]
          simp [chanName, hfree]
        · rw [if_pos (by omega), getD_set_other lpl0 0 i _ [] (fun h => hi0 h.symm)]
          simp [chanName, hfree, hi0]
    · -- shared / fixed / independent: append base name to every slot
      obtain ⟨lpl1, ha1, ha2, ha3⟩ := allChanLoop_ok pv.1 N 0 lpl0 (by omega)
      have hstep : processParam N (lpl0, pend0) pv = Except.ok (lpl1, pend0) := by
        by_cases hsh : pv.2.kind = ParamKind.shared
        · simp only [processParam]
          rw [if_neg hfree, if_pos hsh, ha1]
          rfl
        · simp only [processParam]
          rw [if_neg hfree, if_neg hsh, ha1]
          rfl
      have hlen1 : lpl1.length = N := by omega
      obtain ⟨lpl', h1, h2, h3⟩ := ih lpl1 pend0 hlen1
      refine ⟨lpl', ?_, h2, ?_⟩
      · rw [List.foldlM_cons, hstep]
        refine h1.trans ?_
        rw [List.map_cons, List.flatten_cons]
        simp only [pendOf]
        rw [if_neg hfree, List.nil_append]
      · intro i hi
        rw [h3 i hi, ha3 i, if_pos (by omega)]
        simp [chanName, hfree]

theorem getD_replicate_lt {α : Type} (n i : Nat) (a d : α) (h : i < n) :
    (List.replicate n a).getD i d = a := by
  rw [List.getD_eq_getElem _ d (by simpa using h), List.getElem_replicate]

/-- Full characterization of `make_longparamlist` at `N ≥ 1` effective
channels: it succeeds, `paramtitles` is channel 0's list, channel `i` holds
one `chanName` per declared parameter, and the free-parameter copies are
appended to the `Parameters` object. -/
theorem make_longparamlist_run (sharedp : Bool) (nspecchan N : Nat) (params : Parameters)
    (hNdef : (if sharedp then nspecchan else 1) = N) (hN : 1 ≤ N) :
    ∃ lpl, make_longparamlist sharedp nspecchan params =
        .ok (lpl, lpl.getD 0 [],
          ⟨params.dict, params.pending ++ (params.dict.map (pendOf N)).flatten⟩) ∧
      lpl.length = N ∧
      ∀ i, i < N → lpl.getD i [] = params.dict.map (fun pv => chanName pv i) := by
  obtain ⟨lpl', hfold, hlen, hget⟩ :=
    fold_master N hN params.dict (List.replicate N []) params.pending (by simp)
  refine ⟨lpl', ?_, hlen, ?_⟩
  · simp only [make_longparamlist, hNdef]
    rw [hfold]
    cases lpl' with
    | nil => simp at hlen; omega
    | cons t rest => rfl
  · intro i hi
    rw [hget i hi, getD_replicate_lt N i [] [] hi, List.nil_append]

/-- In shared mode with zero channels the parameter fold either raises at the
first `free` parameter or reaches `paramtitles = longparamlist[0]` with an
empty list; either way an `IndexError` is raised. -/
theorem foldlM_zero_channels :
    ∀ (dict : List (String × Param)) (pend0 : List (String × Param)),
      dict.foldlM (processParam 0) (([] : List (List String)), pend0) = .error .indexError ∨
        dict.foldlM (processParam 0) (([] : List (List String)), pend0) = .ok ([], pend0) := by
  intro dict
  induction dict with
  | nil => intro pend0; right; rfl
  | cons pv rest ih =>
    intro pend0
    by_cases hfree : pv.2.kind = ParamKind.free
    · left
      rw [List.foldlM_cons]
      have hstep : processParam 0 (([] : List (List String)), pend0) pv = .error .indexError := by
        simp only [processParam]
        rw [if_pos hfree]
        rfl
      rw [hstep]
      rfl
    · have hstep : processParam 0 (([] : List (List String)), pend0) pv = .ok ([], pend0) := by
        by_cases hsh : pv.2.kind = ParamKind.shared
        · simp only [processParam]
          rw [if_neg hfree, if_pos hsh]
          rfl
        · simp only [processParam]
          rw [if_neg hfree, if_neg hsh]
          rfl
      rw [List.foldlM_cons, hstep]
      exact ih pend0

/-- Shared mode with zero channels always ends in an `IndexError`. -/
theorem make_longparamlist_zero (params : Parameters) :
    make_longparamlist true 0 params = .error .indexError := by
  have hdef : make_longparamlist true 0 params = (do
      let st ← params.dict.foldlM (processParam 0) (([] : List (List String)), params.pending)
      match st.1 with
      | [] => Except.error PyErr.indexError
      | titles :: _ => Except.ok (st.1, titles, ⟨params.dict, st.2⟩)) := rfl
  rw [hdef]
  rcases foldlM_zero_channels params.dict params.pending with h | h
  · rw [h]; rfl
  · rw [h]; rfl

/-! ### Distinctness of channel-suffixed parameter names -/

theorem base_ne_suffixed (base : String) (i : Nat) :
    base ≠ base ++ "_" ++ Nat.repr i := by
  intro h
  have hd := congrArg String.data h
  rw [String.data_append, String.data_append] at hd
  have hlen := congrArg List.length hd
  rw [List.length_append, List.length_append] at hlen
  have h1 : ("_" : String).data.length = 1 := rfl
  omega

theorem suffixed_inj (base : String) {i j : Nat}
    (h : base ++ "_" ++ Nat.repr i = base ++ "_" ++ Nat.repr j) : i = j := by
  have hd := congrArg String.data h
  rw [String.data_append, String.data_append, String.data_append, String.data_append] at hd
  have h2 := List.append_cancel_left hd
  exact toDigits_injective h2

theorem flatten_nil_of_all_nil {α : Type} :
    ∀ ls : List (List α), (∀ l ∈ ls, l = []) → ls.flatten = [] := by
  intro ls
  induction ls with
  | nil => intro _; rfl
  | cons x rest ih =>
    intro h
    rw [List.flatten_cons, h x (List.mem_cons_self x rest), List.nil_append]
    exact ih (fun l hl => h l (List.mem_cons_of_mem x hl))

/-! ### Claims C1, C2, C3, C6 -/

/-- C1: in shared mode over `N ≥ 1` channels, a `ParameterSet` holding exactly
one `free` parameter `base` is expanded so that channel 0's list is `[base]`,
channel `c`'s list (for `1 ≤ c < N`) is the singleton `base_c` whose
`Parameters` entry copies the base parameter's value, kind and priors; the
`N` names are pairwise distinct and every channel's list has length 1. -/
theorem free_param_expansion (base : String) (p : Param) (N : Nat)
    (pend0 : List (String × Param)) (hfree : p.kind = ParamKind.free) (hN : 1 ≤ N) :
    ∃ lpl params2,
      make_longparamlist true N ⟨[(base, p)], pend0⟩ = .ok (lpl, [base], params2) ∧
      lpl.length = N ∧
      lpl.getD 0 [] = [base] ∧
      (∀ c, 1 ≤ c → c < N → lpl.getD c [] = [base ++ "_" ++ Nat.repr c]) ∧
      (∀ c, c < N → (lpl.getD c []).length = 1) ∧
      (∀ i j, i < N → j < N → i ≠ j →
        (if i = 0 then base else base ++ "_" ++ Nat.repr i) ≠
          (if j = 0 then base else base ++ "_" ++ Nat.repr j)) ∧
      (∀ c, 1 ≤ c → c < N → ∃ q, (base ++ "_" ++ Nat.repr c, q) ∈ params2.pending ∧
        q.value = p.value ∧ q.kind = p.kind ∧ q.priorLo = p.priorLo ∧
        q.priorHi = p.priorHi) := by
  obtain ⟨lpl, heq, hlen, hget⟩ :=
    make_longparamlist_run true N N ⟨[(base, p)], pend0⟩ rfl hN
  have hname0 : chanName (base, p) 0 = base := by
    simp [chanName]
  have hnamec : ∀ c : Nat, c ≠ 0 → chanName (base, p) c = base ++ "_" ++ Nat.repr c := by
    intro c hc
    simp [chanName, hfree, hc]
  have hget0 : lpl.getD 0 [] = [base] := by
    rw [hget 0 (by omega), List.map_cons, List.map_nil, hname0]
  refine ⟨lpl, ⟨[(base, p)], pend0 ++ ([(base, p)].map (pendOf N)).flatten⟩, ?_, hlen, hget0,
    ?_, ?_, ?_, ?_⟩
  · rw [heq, hget0]
  · intro c h1 h2
    rw [hget c h2, List.map_cons, List.map_nil, hnamec c (by omega)]
  · intro c hc
    by_cases hc0 : c = 0
    · subst hc0; rw [hget0]; rfl
    · rw [hget c hc, List.map_cons, List.map_nil, hnamec c hc0]; rfl
  · intro i j hi hj hij
    by_cases hi0 : i = 0
    · subst hi0
      rw [if_pos rfl, if_neg (fun h => hij h.symm)]
      exact base_ne_suffixed base j
    · rw [if_neg hi0]
      by_cases hj0 : j = 0
      · subst hj0
        rw [if_pos rfl]
        exact fun h => base_ne_suffixed base i h.symm
      · rw [if_neg hj0]
        exact fun h => hij (suffixed_inj base h)
  · intro c h1 h2
    refine ⟨p, ?_, rfl, rfl, rfl, rfl⟩
    simp only [List.map_cons, List.map_nil, List.flatten_cons, List.flatten_nil,
      List.append_nil, pendOf]
    rw [if_pos hfree]
    apply List.mem_append_right
    apply List.mem_map.mpr
    refine ⟨c - 1, List.mem_range.mpr (by omega), ?_⟩
    show (base ++ "_" ++ Nat.repr (c - 1 + 1), p) = (base ++ "_" ++ Nat.repr c, p)
    rw [show c - 1 + 1 = c by omega]

/-- C2: in shared mode over `N ≥ 1` channels every `shared`, `fixed` or
`independent` parameter is appended under its unchanged base name to every
channel's list; for a `ParameterSet` with no `free` parameter the expansion
is `replicate N (names of dict)`, all channel lists are identical, equal to
`paramtitles`, and the `Parameters` object is left unchanged. -/
theorem nonfree_params_expansion (dict : List (String × Param))
    (pend0 : List (String × Param)) (N : Nat) (hN : 1 ≤ N) :
    ∃ lpl titles params2,
      make_longparamlist true N ⟨dict, pend0⟩ = .ok (lpl, titles, params2) ∧
      (∀ pv ∈ dict, pv.2.kind ≠ ParamKind.free → ∀ i, i < N → pv.1 ∈ lpl.getD i []) ∧
      ((∀ pv ∈ dict, pv.2.kind ≠ ParamKind.free) →
        (∀ i, i < N → lpl.getD i [] = dict.map Prod.fst) ∧
        lpl = List.replicate N (dict.map Prod.fst) ∧ titles = dict.map Prod.fst ∧
        params2 = ⟨dict, pend0⟩) := by
  obtain ⟨lpl, heq, hlen, hget⟩ :=
    make_longparamlist_run true N N ⟨dict, pend0⟩ rfl hN
  refine ⟨lpl, lpl.getD 0 [], _, heq, ?_, ?_⟩
  · intro pv hpv hkind i hi
    rw [hget i hi]
    have := List.mem_map_of_mem (fun pv => chanName pv i) hpv
    simpa [chanName, hkind] using this
  · intro hall
    have hmap : ∀ i, i < N → lpl.getD i [] = dict.map Prod.fst := by
      intro i hi
      rw [hget i hi]
      apply List.map_congr_left
      intro pv hpv
      simp [chanName, hall pv hpv]
    refine ⟨hmap, eq_replicate_of_getD [] lpl N (dict.map Prod.fst) hlen hmap,
      hmap 0 (by omega), ?_⟩
    have hflat : (dict.map (pendOf N)).flatten = [] := by
      apply flatten_nil_of_all_nil
      intro l hl
      obtain ⟨pv, hpv, hrfl⟩ := List.mem_map.mp hl
      rw [← hrfl]
      simp [pendOf, hall pv hpv]
    rw [hflat, List.append_nil]

/-- C3: the expander is idempotent — running `make_longparamlist` again on
the `Parameters` object returned by a successful run yields the same
`longparamlist` and `paramtitles`, since the synthesized copies are
materialized lazily and do not enter the `dict` iteration. -/
theorem expander_idempotent (sharedp : Bool) (nspecchan : Nat) (params : Parameters)
    (lpl : List (List String)) (titles : List String) (params2 : Parameters)
    (h : make_longparamlist sharedp nspecchan params = .ok (lpl, titles, params2)) :
    ∃ params3, make_longparamlist sharedp nspecchan params2 = .ok (lpl, titles, params3) := by
  by_cases hN : 1 ≤ (if sharedp then nspecchan else 1)
  · obtain ⟨lpl1, heq1, hlen1, hget1⟩ :=
      make_longparamlist_run sharedp nspecchan _ params rfl hN
    rw [heq1] at h
    simp only [Except.ok.injEq, Prod.mk.injEq] at h
    obtain ⟨hl, ht, hp⟩ := h
    obtain ⟨lpl2, heq2, hlen2, hget2⟩ :=
      make_longparamlist_run sharedp nspecchan _ params2 rfl hN
    have hdict : params2.dict = params.dict := by rw [← hp]
    have hsame : lpl2 = lpl1 := by
      apply List.ext_getElem (by omega)
      intro i h1 h2
      rw [← List.getD_eq_getElem lpl2 [] h1, ← List.getD_eq_getElem lpl1 [] h2,
        hget2 i (by omega), hget1 i (by omega), hdict]
    refine ⟨⟨params2.dict, params2.pending ++
      (List.map (pendOf (if sharedp then nspecchan else 1)) params2.dict).flatten⟩, ?_⟩
    rw [hl] at ht
    rw [heq2, hsame, hl, ht]
  · exfalso
    cases sharedp with
    | false => exact hN (by simp)
    | true =>
      have hle : ¬ (1 ≤ nspecchan) := hN
      have hn0 : nspecchan = 0 := by omega
      subst hn0
      rw [make_longparamlist_zero params] at h
      exact Except.noConfusion h

/-- C6 counterexample: a `free` parameter with no prior bounds is expanded
without any error, so the expander does not fail on missing prior bounds. -/
theorem missing_priors_no_failure_cx :
    make_longparamlist true 2 ⟨[("rp", ⟨0, ParamKind.free, none, none⟩)], []⟩ =
      .ok ([["rp"], ["rp_1"]], ["rp"],
        ⟨[("rp", ⟨0, ParamKind.free, none, none⟩)],
         [("rp_1", ⟨0, ParamKind.free, none, none⟩)]⟩) := by
  rfl

/-- C6 (amended): the expander performs no validation: in shared mode with
zero channels it fails with an `IndexError` (not a `ConfigurationError`,
which does not exist in the code), while with `N ≥ 1` channels it always
succeeds — in particular a `free` parameter lacking prior bounds is expanded
without any error, so no fail-fast bounds check occurs. -/
theorem expander_error_behavior (params : Parameters) (N : Nat) (hN : 1 ≤ N) :
    make_longparamlist true 0 params = .error .indexError ∧
      ∃ r, make_longparamlist true N params = .ok r := by
  refine ⟨make_longparamlist_zero params, ?_⟩
  obtain ⟨lpl, heq, _, _⟩ := make_longparamlist_run true N N params rfl hN
  exact ⟨_, heq⟩

/-- Witness for C1 at `base = rp`, `N = 3`. -/
theorem free_param_expansion_witness :
    ParamKind.free = ParamKind.free ∧ 1 ≤ 3 ∧
      ∃ lpl params2,
        make_longparamlist true 3 ⟨[("rp", ⟨1/2, ParamKind.free, none, none⟩)], []⟩ =
          .ok (lpl, ["rp"], params2) ∧
        lpl.length = 3 ∧
        lpl.getD 0 [] = ["rp"] ∧
        (∀ c, 1 ≤ c → c < 3 → lpl.getD c [] = ["rp" ++ "_" ++ Nat.repr c]) ∧
        (∀ c, c < 3 → (lpl.getD c []).length = 1) ∧
        (∀ i j, i < 3 → j < 3 → i ≠ j →
          (if i = 0 then "rp" else "rp" ++ "_" ++ Nat.repr i) ≠
            (if j = 0 then "rp" else "rp" ++ "_" ++ Nat.repr j)) ∧
        (∀ c, 1 ≤ c → c < 3 →
          ∃ q, ("rp" ++ "_" ++ Nat.repr c, q) ∈ params2.pending ∧
            q.value = (⟨1/2, ParamKind.free, none, none⟩ : Param).value ∧
            q.kind = (⟨1/2, ParamKind.free, none, none⟩ : Param).kind ∧
            q.priorLo = (⟨1/2, ParamKind.free, none, none⟩ : Param).priorLo ∧
            q.priorHi = (⟨1/2, ParamKind.free, none, none⟩ : Param).priorHi) :=
  ⟨rfl, by omega,
    free_param_expansion "rp" ⟨1/2, ParamKind.free, none, none⟩ 3 [] rfl (by omega)⟩

/-- Witness for C2 at a two-parameter fixed/independent set, `N = 3`. -/
theorem nonfree_params_expansion_witness :
    1 ≤ 3 ∧
      ∃ lpl titles params2,
        make_longparamlist true 3
            ⟨[("per", ⟨5, ParamKind.fixed, none, none⟩),
              ("a", ⟨9, ParamKind.independent, none, none⟩)], []⟩ =
          .ok (lpl, titles, params2) ∧
        (∀ pv ∈ [("per", (⟨5, ParamKind.fixed, none, none⟩ : Param)),
            ("a", ⟨9, ParamKind.independent, none, none⟩)],
          pv.2.kind ≠ ParamKind.free → ∀ i, i < 3 → pv.1 ∈ lpl.getD i []) ∧
        ((∀ pv ∈ [("per", (⟨5, ParamKind.fixed, none, none⟩ : Param)),
            ("a", ⟨9, ParamKind.independent, none, none⟩)], pv.2.kind ≠ ParamKind.free) →
          (∀ i, i < 3 →
            lpl.getD i [] = List.map Prod.fst
              [("per", (⟨5, ParamKind.fixed, none, none⟩ : Param)),
               ("a", ⟨9, ParamKind.independent, none, none⟩)]) ∧
          lpl = List.replicate 3 (List.map Prod.fst
            [("per", (⟨5, ParamKind.fixed, none, none⟩ : Param)),
             ("a", ⟨9, ParamKind.independent, none, none⟩)]) ∧
          titles = List.map Prod.fst
            [("per", (⟨5, ParamKind.fixed, none, none⟩ : Param)),
             ("a", ⟨9, ParamKind.independent, none, none⟩)] ∧
          params2 = ⟨[("per", ⟨5, ParamKind.fixed, none, none⟩),
            ("a", ⟨9, ParamKind.independent, none, none⟩)], []⟩) :=
  ⟨by omega,
    nonfree_params_expansion
      [("per", ⟨5, ParamKind.fixed, none, none⟩),
       ("a", ⟨9, ParamKind.independent, none, none⟩)] [] 3 (by omega)⟩

/-- Witness for C3: a successful first run on a one-parameter shared-mode set. -/
theorem expander_idempotent_witness :
    ∃ params3,
      make_longparamlist true 2
          ⟨[("rp", ⟨0, ParamKind.free, none, none⟩)],
           [("rp_1", ⟨0, ParamKind.free, none, none⟩)]⟩ =
        .ok ([["rp"], ["rp_1"]], ["rp"], params3) :=
  expander_idempotent true 2 ⟨[("rp", ⟨0, ParamKind.free, none, none⟩)], []⟩
    [["rp"], ["rp_1"]] ["rp"]
    ⟨[("rp", ⟨0, ParamKind.free, none, none⟩)],
     [("rp_1", ⟨0, ParamKind.free, none, none⟩)]⟩ rfl

/-- Witness for C6 (amended) at `N = 2`. -/
theorem expander_error_behavior_witness :
    make_longparamlist true 0 ⟨[("rp", ⟨0, ParamKind.free, none, none⟩)], []⟩ =
        .error .indexError ∧
      ∃ r, make_longparamlist true 2 ⟨[("rp", ⟨0, ParamKind.free, none, none⟩)], []⟩ =
        .ok r :=
  expander_error_behavior ⟨[("rp", ⟨0, ParamKind.free, none, none⟩)], []⟩ 2 (by omega)

/-! ### Claim C5: the fitter dispatch of `fit_channel` (s5_fit.py lines 210-236)

The source checks `'lsq' in meta.fit_method`, then `'emcee'`, then
`'dynesty'`, then `'lmfit'`, calling `lc_model.fit(...)` once inside each
taken branch.  `fitSequence` records, in order, the fitter kinds passed to
`LightCurve.fit`. -/

def fitSequence (fit_method : List String) : List String :=
  (if "lsq" ∈ fit_method then ["lsq"] else []) ++
    ((if "emcee" ∈ fit_method then ["emcee"] else []) ++
      ((if "dynesty" ∈ fit_method then ["dynesty"] else []) ++
        (if "lmfit" ∈ fit_method then ["lmfit"] else [])))

/-- C5: `fit_channel` invokes `LightCurve.fit` exactly once per requested
fitter kind, never for an unrequested kind, and in the fixed priority order
lsq, emcee, dynesty, lmfit with unrequested kinds skipped. -/
theorem fitter_dispatch (fm : List String) :
    fitSequence fm = ["lsq", "emcee", "dynesty", "lmfit"].filter (fun k => decide (k ∈ fm)) ∧
    (∀ k ∈ (["lsq", "emcee", "dynesty", "lmfit"] : List String),
      (fitSequence fm).count k = if k ∈ fm then 1 else 0) ∧
    (∀ k : String, k ∉ fm → (fitSequence fm).count k = 0) := by
  refine ⟨?_, ?_, ?_⟩
  · by_cases h1 : "lsq" ∈ fm <;> by_cases h2 : "emcee" ∈ fm <;>
      by_cases h3 : "dynesty" ∈ fm <;> by_cases h4 : "lmfit" ∈ fm <;>
      simp [fitSequence, h1, h2, h3, h4]
  · intro k hk
    fin_cases hk <;>
      by_cases h1 : "lsq" ∈ fm <;> by_cases h2 : "emcee" ∈ fm <;>
        by_cases h3 : "dynesty" ∈ fm <;> by_cases h4 : "lmfit" ∈ fm <;>
        simp [fitSequence, h1, h2, h3, h4, List.count_append, List.count_cons]
  · intro k hk
    have n1 : "lsq" ∈ fm → ¬ ("lsq" = k) := fun h hk1 => hk (hk1 ▸ h)
    have n2 : "emcee" ∈ fm → ¬ ("emcee" = k) := fun h hk1 => hk (hk1 ▸ h)
    have n3 : "dynesty" ∈ fm → ¬ ("dynesty" = k) := fun h hk1 => hk (hk1 ▸ h)
    have n4 : "lmfit" ∈ fm → ¬ ("lmfit" = k) := fun h hk1 => hk (hk1 ▸ h)
    by_cases h1 : "lsq" ∈ fm <;> by_cases h2 : "emcee" ∈ fm <;>
      by_cases h3 : "dynesty" ∈ fm <;> by_cases h4 : "lmfit" ∈ fm <;>
      simp [fitSequence, h1, h2, h3, h4, List.count_append, List.count_cons,
        n1, n2, n3, n4]

/-- Witness for C5 at `fit_method = [dynesty, lsq]`. -/
theorem fitter_dispatch_witness :
    fitSequence ["dynesty", "lsq"] =
        ["lsq", "emcee", "dynesty", "lmfit"].filter
          (fun k => decide (k ∈ (["dynesty", "lsq"] : List String))) ∧
      (∀ k ∈ (["lsq", "emcee", "dynesty", "lmfit"] : List String),
        (fitSequence ["dynesty", "lsq"]).count k =
          if k ∈ (["dynesty", "lsq"] : List String) then 1 else 0) ∧
      (∀ k : String, k ∉ (["dynesty", "lsq"] : List String) →
        (fitSequence ["dynesty", "lsq"]).count k = 0) :=
  fitter_dispatch ["dynesty", "lsq"]

/-! ### Claim C10: `check_nans` (util.py lines 58-84)

NumPy float entries are embedded as rationals with an explicit NaN marker,
which is all `check_nans` inspects (`np.isnan`). -/

inductive NpVal
  | num (q : ℚ)
  | nan
deriving DecidableEq, Repr

def isnan : NpVal → Bool
  | .nan => true
  | .num _ => false

/-- Embedding of `check_nans(data, mask, log, name)`: counts NaNs in `data`;
when at least one is present it logs a warning (the returned Bool) and zeroes
the mask exactly at the NaN positions (`mask[inan] = 0`); `data` itself is
never written (the source's write is commented out). -/
def check_nans (data : List NpVal) (mask : List ℚ) : List ℚ × Bool :=
  let num_nans := (data.filter isnan).length
  if num_nans > 0 then
    ((data.zip mask).map (fun dm => if isnan dm.1 then 0 else dm.2), true)
  else (mask, false)

/-- C10: `check_nans` never raises; the returned mask is 0 exactly at NaN
positions of `data` and unchanged elsewhere, and the warning fires iff
`data` contains at least one NaN. -/
theorem check_nans_spec (data : List NpVal) (mask : List ℚ)
    (hlen : data.length = mask.length) :
    ((check_nans data mask).1).length = mask.length ∧
    (∀ i, i < mask.length →
      (check_nans data mask).1.getD i 0 =
        if isnan (data.getD i .nan) then 0 else mask.getD i 0) ∧
    ((check_nans data mask).2 = true ↔ ∃ v ∈ data, isnan v = true) := by
  by_cases h : (data.filter isnan).length > 0
  · have hck : check_nans data mask =
        ((data.zip mask).map (fun dm => if isnan dm.1 then 0 else dm.2), true) := by
      simp [check_nans, h]
    rw [hck]
    have hzlen : (data.zip mask).length = mask.length := by
      rw [List.length_zip, hlen, Nat.min_self]
    refine ⟨by rw [List.length_map, hzlen], ?_, ?_⟩
    · intro i hi
      have hiz : i < ((data.zip mask).map
          (fun dm => if isnan dm.1 then 0 else dm.2)).length := by
        rw [List.length_map, hzlen]; exact hi
      rw [List.getD_eq_getElem _ 0 hiz, List.getElem_map, List.getElem_zip,
        List.getD_eq_getElem data .nan (by omega), List.getD_eq_getElem mask 0 hi]
    · simp only [true_iff]
      have hne : data.filter isnan ≠ [] := by
        intro hnil
        rw [hnil] at h
        simp at h
      obtain ⟨v, hv⟩ := List.exists_mem_of_ne_nil _ hne
      have := List.mem_filter.mp hv
      exact ⟨v, this.1, this.2⟩
  · have hck : check_nans data mask = (mask, false) := by
      simp only [check_nans]
      rw [if_neg h]
    rw [hck]
    have hnonan : ∀ v ∈ data, isnan v = false := by
      intro v hv
      by_contra htrue
      apply h
      have : v ∈ data.filter isnan := List.mem_filter.mpr
        ⟨hv, by revert htrue; cases isnan v <;> simp⟩
      have := List.length_pos.mpr (List.ne_nil_of_mem this)
      omega
    refine ⟨rfl, ?_, ?_⟩
    · intro i hi
      have hid : i < data.length := by omega
      have : isnan (data.getD i .nan) = false := by
        rw [List.getD_eq_getElem data .nan hid]
        exact hnonan _ (List.getElem_mem hid)
      rw [this]
      simp
    · simp only [Bool.false_eq_true, false_iff]
      rintro ⟨v, hv, htrue⟩
      rw [hnonan v hv] at htrue
      exact Bool.noConfusion htrue

/-- Witness for C10 on a concrete two-sample array with one NaN. -/
theorem check_nans_spec_witness :
    ((check_nans [NpVal.num 1, NpVal.nan] [5, 7]).1).length = ([5, 7] : List ℚ).length ∧
      (∀ i, i < ([5, 7] : List ℚ).length →
        (check_nans [NpVal.num 1, NpVal.nan] [5, 7]).1.getD i 0 =
          if isnan ([NpVal.num 1, NpVal.nan].getD i .nan) then 0
          else ([5, 7] : List ℚ).getD i 0) ∧
      ((check_nans [NpVal.num 1, NpVal.nan] [5, 7]).2 = true ↔
        ∃ v ∈ [NpVal.num 1, NpVal.nan], isnan v = true) :=
  check_nans_spec [NpVal.num 1, NpVal.nan] [5, 7] rfl

/-! ### Claim C4: shared-mode flux flattening in `fitJWST` (s5_fit.py lines 141-153)

The loop `for i in np.arange(meta.nspecchan)` appends
`lcdata[i,:] / np.mean(lcdata[i,:])` to `flux` and
`lcerr[i,:] / np.mean(lcdata[i,:])` to `flux_err`.  Floats are embedded as
rationals; `np.mean` is sum over length (division by zero yields 0 in ℚ,
which the mean-is-one conclusion guards against exactly as the claim does). -/

def npMean (l : List ℚ) : ℚ := l.sum / l.length

/-- Embedding of the `flux = np.append(flux, ...)` accumulation. -/
def sharedFlux (lcdata : List (List ℚ)) : List ℚ :=
  lcdata.foldl (fun flux ch => flux ++ ch.map (fun x => x / npMean ch)) []

/-- Embedding of the `flux_err = np.append(flux_err, ...)` accumulation;
the same loop index walks `lcdata` and `lcerr` together, and the divisor is
the mean of the channel's flux, not of its uncertainty. -/
def sharedFluxErr (lcdata lcerr : List (List ℚ)) : List ℚ :=
  (lcdata.zip lcerr).foldl (fun fe p => fe ++ p.2.map (fun x => x / npMean p.1)) []

theorem foldl_append_eq_flatten {α β : Type} (f : α → List β) :
    ∀ (l : List α) (acc : List β),
      l.foldl (fun a x => a ++ f x) acc = acc ++ (l.map f).flatten := by
  intro l
  induction l with
  | nil => intro acc; simp
  | cons x rest ih =>
    intro acc
    rw [List.foldl_cons, ih (acc ++ f x), List.map_cons, List.flatten_cons,
      List.append_assoc]

theorem flatten_block_extract {α : Type} (L : Nat) :
    ∀ (ls : List (List α)) (i : Nat), (∀ x ∈ ls, x.length = L) → i < ls.length →
      ((ls.flatten).drop (i * L)).take L = ls.getD i [] := by
  intro ls
  induction ls with
  | nil => intro i _ hi; simp at hi
  | cons x rest ih =>
    intro i hall hi
    cases i with
    | zero =>
      simp only [Nat.zero_mul, List.drop_zero, List.flatten_cons]
      rw [show L = x.length from (hall x (List.mem_cons_self x rest)).symm]
      rw [List.take_left]
      rfl
    | succ i =>
      rw [List.flatten_cons,
        show (i + 1) * L = x.length + i * L by
          rw [hall x (List.mem_cons_self x rest)]; ring,
        List.drop_append]
      exact ih i (fun y hy => hall y (List.mem_cons_of_mem x hy)) (by simpa using hi)

theorem flatten_const_length {α : Type} (L : Nat) :
    ∀ ls : List (List α), (∀ x ∈ ls, x.length = L) → ls.flatten.length = ls.length * L := by
  intro ls
  induction ls with
  | nil => intro _; simp
  | cons x rest ih =>
    intro hall
    rw [List.flatten_cons, List.length_append, hall x (List.mem_cons_self x rest),
      ih (fun y hy => hall y (List.mem_cons_of_mem x hy)), List.length_cons]
    ring

theorem sum_map_div (l : List ℚ) (c : ℚ) :
    (l.map (fun x => x / c)).sum = l.sum / c := by
  induction l with
  | nil => simp
  | cons x rest ih => simp [ih, add_div]

/-- Normalizing a channel by its own nonzero mean yields a mean of exactly 1. -/
theorem mean_normalized (ch : List ℚ) (hm : npMean ch ≠ 0) :
    npMean (ch.map (fun x => x / npMean ch)) = 1 := by
  have hlen0 : ch.length ≠ 0 := by
    intro h
    apply hm
    rw [List.length_eq_zero.mp h]
    simp [npMean]
  have hL : (ch.length : ℚ) ≠ 0 := by
    simpa using hlen0
  have hsum0 : ch.sum ≠ 0 := by
    intro h
    apply hm
    simp [npMean, h]
  simp only [npMean, List.length_map, sum_map_div]
  field_simp

/-- C4: in shared mode the flattened flux has length `N * L`; its `i`-th
`L`-block is channel `i` normalized by its own mean (hence of mean 1 when
that mean is nonzero), and the `i`-th block of the flattened uncertainty is
`lcerr[i]` divided by the mean of `lcdata[i]`. -/
theorem shared_flux_blocks (lcdata lcerr : List (List ℚ)) (L : Nat)
    (hlen : lcerr.length = lcdata.length)
    (hd : ∀ ch ∈ lcdata, ch.length = L)
    (he : ∀ ch ∈ lcerr, ch.length = L) :
    (sharedFlux lcdata).length = lcdata.length * L ∧
    (∀ i, i < lcdata.length →
      ((sharedFlux lcdata).drop (i * L)).take L =
        (lcdata.getD i []).map (fun x => x / npMean (lcdata.getD i []))) ∧
    (∀ i, i < lcdata.length → npMean (lcdata.getD i []) ≠ 0 →
      npMean (((sharedFlux lcdata).drop (i * L)).take L) = 1) ∧
    (∀ i, i < lcdata.length →
      ((sharedFluxErr lcdata lcerr).drop (i * L)).take L =
        (lcerr.getD i []).map (fun x => x / npMean (lcdata.getD i []))) := by
  have hflux : sharedFlux lcdata =
      (lcdata.map (fun ch => ch.map (fun x => x / npMean ch))).flatten := by
    rw [sharedFlux, foldl_append_eq_flatten, List.nil_append]
  have hferr : sharedFluxErr lcdata lcerr =
      ((lcdata.zip lcerr).map (fun p => p.2.map (fun x => x / npMean p.1))).flatten := by
    rw [sharedFluxErr, foldl_append_eq_flatten, List.nil_append]
  have hmaplen : ∀ x ∈ lcdata.map (fun ch => ch.map (fun x => x / npMean ch)),
      x.length = L := by
    intro x hx
    obtain ⟨ch, hch, hrfl⟩ := List.mem_map.mp hx
    rw [← hrfl, List.length_map]
    exact hd ch hch
  have hblock : ∀ i, i < lcdata.length →
      ((sharedFlux lcdata).drop (i * L)).take L =
        (lcdata.getD i []).map (fun x => x / npMean (lcdata.getD i [])) := by
    intro i hi
    rw [hflux, flatten_block_extract L _ i hmaplen (by simpa using hi),
      List.getD_eq_getElem _ [] (by simpa using hi), List.getElem_map,
      List.getD_eq_getElem lcdata [] hi]
  refine ⟨?_, hblock, ?_, ?_⟩
  · rw [hflux, flatten_const_length L _ hmaplen, List.length_map]
  · intro i hi hm
    rw [hblock i hi]
    exact mean_normalized _ hm
  · intro i hi
    have hzlen : (lcdata.zip lcerr).length = lcdata.length := by
      rw [List.length_zip, hlen, Nat.min_self]
    have hzmaplen : ∀ x ∈ (lcdata.zip lcerr).map
        (fun p => p.2.map (fun x => x / npMean p.1)), x.length = L := by
      intro x hx
      obtain ⟨p, hp, hrfl⟩ := List.mem_map.mp hx
      rw [← hrfl, List.length_map]
      exact he p.2 (List.of_mem_zip hp).2
    rw [hferr, flatten_block_extract L _ i hzmaplen (by rw [List.length_map, hzlen]; exact hi),
      List.getD_eq_getElem _ [] (by rw [List.length_map, hzlen]; exact hi),
      List.getElem_map, List.getElem_zip, List.getD_eq_getElem lcerr [] (by omega),
      List.getD_eq_getElem lcdata [] hi]

/-- Witness for C4 on two channels of two samples each. -/
theorem shared_flux_blocks_witness :
    (sharedFlux [[1, 3], [2, 2]]).length = ([[1, 3], [2, 2]] : List (List ℚ)).length * 2 ∧
      (∀ i, i < ([[1, 3], [2, 2]] : List (List ℚ)).length →
        ((sharedFlux [[1, 3], [2, 2]]).drop (i * 2)).take 2 =
          (([[1, 3], [2, 2]] : List (List ℚ)).getD i []).map
            (fun x => x / npMean (([[1, 3], [2, 2]] : List (List ℚ)).getD i []))) ∧
      (∀ i, i < ([[1, 3], [2, 2]] : List (List ℚ)).length →
        npMean (([[1, 3], [2, 2]] : List (List ℚ)).getD i []) ≠ 0 →
        npMean (((sharedFlux [[1, 3], [2, 2]]).drop (i * 2)).take 2) = 1) ∧
      (∀ i, i < ([[1, 3], [2, 2]] : List (List ℚ)).length →
        ((sharedFluxErr [[1, 3], [2, 2]] [[1, 1], [2, 4]]).drop (i * 2)).take 2 =
          (([[1, 1], [2, 4]] : List (List ℚ)).getD i []).map
            (fun x => x / npMean (([[1, 3], [2, 2]] : List (List ℚ)).getD i []))) :=
  shared_flux_blocks [[1, 3], [2, 2]] [[1, 1], [2, 4]] 2 rfl
    (by intro ch hch; fin_cases hch <;> rfl)
    (by intro ch hch; fin_cases hch <;> rfl)

/-! ### Claim C7: `read_s4_meta` (s5_fit.py lines 269-299)

The two `glob.glob` results are inputs (`directFiles` for the inputdir
itself, `recursiveFiles` for its children).  `sort_nicely` is an external
collaborator whose source is not under `src/`; it is passed as a function
assumed only to preserve length (it is a reordering).  The function returns
the stem of the chosen save file (`files[-1]` with the `.dat` ending
stripped, which `loadevent` then loads) together with whether the
multiple-candidates warning was printed. -/
def read_s4_meta (sortf : List String → List String)
    (directFiles recursiveFiles : List String) : Except PyErr (String × Bool) :=
  let files := if directFiles.length = 0 then sortf recursiveFiles else directFiles
  if files.length = 0 then .error .assertionError
  else .ok ((files.getLastD "").dropRight 4, decide (files.length > 1))

/-- C7: `read_s4_meta` raises (an `AssertionError`) iff zero candidate save
files match; with at least one candidate it returns the last candidate of
the (naturally sorted) list — the most recent — stripped of `.dat`, warning
iff more than one candidate matched. -/
theorem read_s4_meta_spec (sortf : List String → List String)
    (hsort : ∀ l, (sortf l).length = l.length)
    (directFiles recursiveFiles : List String) :
    ((∃ e, read_s4_meta sortf directFiles recursiveFiles = .error e) ↔
      (directFiles = [] ∧ recursiveFiles = [])) ∧
    (∀ chosen warned,
      read_s4_meta sortf directFiles recursiveFiles = .ok (chosen, warned) →
      (warned = true ↔
        1 < (if directFiles.length = 0 then sortf recursiveFiles else directFiles).length) ∧
      chosen = (((if directFiles.length = 0 then sortf recursiveFiles
        else directFiles).getLastD "").dropRight 4)) := by
  by_cases hd : directFiles.length = 0
  · by_cases hr : (sortf recursiveFiles).length = 0
    · have hcomp : read_s4_meta sortf directFiles recursiveFiles = .error .assertionError := by
        simp only [read_s4_meta]
        rw [if_pos hd, if_pos hr]
      constructor
      · constructor
        · intro _
          refine ⟨List.length_eq_zero.mp hd, List.length_eq_zero.mp ?_⟩
          rw [← hsort recursiveFiles]
          exact hr
        · intro _
          exact ⟨.assertionError, hcomp⟩
      · intro chosen warned hok
        rw [hcomp] at hok
        exact Except.noConfusion hok
    · have hcomp : read_s4_meta sortf directFiles recursiveFiles =
          .ok (((sortf recursiveFiles).getLastD "").dropRight 4,
            decide (1 < (sortf recursiveFiles).length)) := by
        simp only [read_s4_meta]
        rw [if_pos hd, if_neg hr]
      constructor
      · constructor
        · rintro ⟨e, he⟩
          rw [hcomp] at he
          exact Except.noConfusion he
        · rintro ⟨_, hr2⟩
          subst hr2
          exact absurd (by rw [hsort]; rfl) hr
      · intro chosen warned hok
        rw [hcomp] at hok
        simp only [Except.ok.injEq, Prod.mk.injEq] at hok
        obtain ⟨hc, hw⟩ := hok
        rw [if_pos hd]
        constructor
        · rw [← hw]
          exact decide_eq_true_iff
        · rw [← hc]
  · have hcomp : read_s4_meta sortf directFiles recursiveFiles =
        .ok ((directFiles.getLastD "").dropRight 4, decide (1 < directFiles.length)) := by
      simp only [read_s4_meta]
      rw [if_neg hd, if_neg hd]
    constructor
    · constructor
      · rintro ⟨e, he⟩
        rw [hcomp] at he
        exact Except.noConfusion he
      · rintro ⟨hd2, _⟩
        exact absurd (by rw [hd2]; rfl) hd
    · intro chosen warned hok
      rw [hcomp] at hok
      simp only [Except.ok.injEq, Prod.mk.injEq] at hok
      obtain ⟨hc, hw⟩ := hok
      rw [if_neg hd]
      constructor
      · rw [← hw]
        exact decide_eq_true_iff
      · rw [← hc]

/-- Witness for C7 with the identity sort and two direct candidates. -/
theorem read_s4_meta_spec_witness :
    ((∃ e, read_s4_meta id ["S4_a_Meta_Save.dat", "S4_b_Meta_Save.dat"] [] = .error e) ↔
      ((["S4_a_Meta_Save.dat", "S4_b_Meta_Save.dat"] : List String) = [] ∧
        ([] : List String) = [])) ∧
    (∀ chosen warned,
      read_s4_meta id ["S4_a_Meta_Save.dat", "S4_b_Meta_Save.dat"] [] = .ok (chosen, warned) →
      (warned = true ↔
        1 < (if (["S4_a_Meta_Save.dat", "S4_b_Meta_Save.dat"] : List String).length = 0
          then id ([] : List String)
          else ["S4_a_Meta_Save.dat", "S4_b_Meta_Save.dat"]).length) ∧
      chosen = (((if (["S4_a_Meta_Save.dat", "S4_b_Meta_Save.dat"] : List String).length = 0
        then id ([] : List String)
        else ["S4_a_Meta_Save.dat", "S4_b_Meta_Save.dat"]).getLastD "").dropRight 4)) :=
  read_s4_meta_spec id (fun _ => rfl) ["S4_a_Meta_Save.dat", "S4_b_Meta_Save.dat"] []

/-! ### Claims C8 and C9: `makedirectory` / `pathdirectory` (util.py lines 86-194)

Directory paths are manipulated character by character in the source
(`outputdir[-1]`, `outputdir[:-1]`, `+=`), so Python strings are embedded
here as `List Char`.  `os.sep` is `/`.  The filesystem is the list `fs` of
existing paths probed by `os.path.exists`; `meta.datetime` is the resolved
date string (the claims fix the date). -/

def sep : List Char := ['/']

/-- Embedding of `os.path.join(a, *p)` (POSIX rules, as used on
`meta.topdir` and the split `meta.outputdir_raw`). -/
def osJoin (base : List Char) (parts : List (List Char)) : List Char :=
  parts.foldl (fun path b =>
    if b.head? = some '/' then b
    else if path = [] ∨ path.getLast? = some '/' then path ++ b
    else path ++ sep ++ b) base

/-- The `rootdir` both utilities build the same way:
`os.path.join(meta.topdir, *meta.outputdir_raw.split(os.sep))` followed by
appending `os.sep` when the last character is not already `os.sep`. -/
def rootdirOf (topdir outputdir_raw : List Char) : List Char :=
  let rootdir := osJoin topdir (outputdir_raw.splitOn '/')
  if rootdir.getLast? ≠ some '/' then rootdir ++ sep else rootdir

/-- The run-directory name stem `rootdir + stage + '_' + datetime + '_' +
eventlabel + '_run'` that `makedirectory` probes with `os.path.exists`. -/
def runStem (topdir outputdir_raw stage datetime eventlabel : List Char) : List Char :=
  rootdirOf topdir outputdir_raw ++ stage ++ "_".data ++ datetime ++ "_".data ++
    eventlabel ++ "_run".data

/-- Embedding of `counter = 1; while os.path.exists(outputdir+str(counter)):
counter += 1`.  `ex` is the `os.path.exists` oracle and `fuel` bounds the
iterations (the Python loop terminates because the filesystem is finite). -/
def findRunCounter (ex : List Char → Bool) (stem : List Char) : Nat → Nat → Nat
  | 0, k => k
  | fuel + 1, k =>
    if ex (stem ++ (Nat.repr k).data) then findRunCounter ex stem fuel (k + 1) else k

/-- The trailing construction shared verbatim by `makedirectory` (lines
124-134) and `pathdirectory` (lines 183-192): append `key+str(value)+'_'`
per kwargs item, strip a trailing underscore, ensure a trailing `os.sep`. -/
def dirTail (base : List Char) (kwargs : List (List Char × List Char)) : List Char :=
  let outputdir := kwargs.foldl (fun dd kv => dd ++ (kv.1 ++ kv.2 ++ "_".data)) base
  let outputdir := if outputdir.getLast? = some '_' then outputdir.dropLast else outputdir
  if outputdir.getLast? ≠ some '/' then outputdir ++ sep else outputdir

/-- Embedding of `makedirectory(meta, stage, counter=None, **kwargs)`
(util.py lines 86-147): finds the run counter (or takes the forced one),
then builds the output directory `stem + str(counter) + os.sep` followed by
the kwargs / trailing-character handling.  Returns the run counter and the
path of the directory tree it creates. -/
def makedirectory (fs : List (List Char))
    (topdir outputdir_raw stage datetime eventlabel : List Char)
    (counter : Option Nat) (kwargs : List (List Char × List Char)) : Nat × List Char :=
  let stem := runStem topdir outputdir_raw stage datetime eventlabel
  let c := match counter with
    | none => findRunCounter (fun s => decide (s ∈ fs)) stem (fs.length + 1) 1
    | some c => c
  (c, dirTail (stem ++ (Nat.repr c).data ++ sep) kwargs)

/-- Embedding of `pathdirectory(meta, stage, run, **kwargs)` (util.py lines
149-194): rebuilds, from the metadata fields and the run number, the path
`rootdir + stage + '_' + datetime + '_' + eventlabel + '_run' + str(run) +
os.sep` followed by the same kwargs / trailing-character handling. -/
def pathdirectory (topdir outputdir_raw stage datetime eventlabel : List Char)
    (run : Nat) (kwargs : List (List Char × List Char)) : List Char :=
  dirTail (rootdirOf topdir outputdir_raw ++ stage ++ "_".data ++ datetime ++
    "_".data ++ eventlabel ++ "_run".data ++ (Nat.repr run).data ++ sep) kwargs

/-- Among run numbers `1 .. fs.length + 1` some run-directory name is not in
the filesystem (pigeonhole via injectivity of the decimal counter). -/
theorem exists_fresh_run (fs : List (List Char)) (stem : List Char) :
    ∃ j, 1 ≤ j ∧ j ≤ fs.length + 1 ∧ (stem ++ (Nat.repr j).data) ∉ fs := by
  by_contra hall
  push_neg at hall
  have hinj : Function.Injective (fun j : Nat => stem ++ (Nat.repr (j + 1)).data) := by
    intro a b h
    simp only at h
    have hdig : Nat.toDigits 10 (a + 1) = Nat.toDigits 10 (b + 1) :=
      List.append_cancel_left h
    have := toDigits_injective hdig
    omega
  have hsub : (Finset.range (fs.length + 1)).image
      (fun j => stem ++ (Nat.repr (j + 1)).data) ⊆ fs.toFinset := by
    intro x hx
    obtain ⟨j, hj, hrfl⟩ := Finset.mem_image.mp hx
    rw [← hrfl]
    apply List.mem_toFinset.mpr
    exact hall (j + 1) (by omega) (by have := Finset.mem_range.mp hj; omega)
  have hcard := Finset.card_le_card hsub
  rw [Finset.card_image_of_injective _ hinj, Finset.card_range] at hcard
  have := fs.toFinset_card_le
  omega

/-- The `while` loop returns the least counter `≥ k0` whose run directory
does not exist, provided some such counter lies within the fuel window. -/
theorem findRunCounter_least (ex : List Char → Bool) (stem : List Char) :
    ∀ (fuel k0 : Nat),
      (∃ j, k0 ≤ j ∧ j < k0 + fuel ∧ ex (stem ++ (Nat.repr j).data) = false) →
      k0 ≤ findRunCounter ex stem fuel k0 ∧
        ex (stem ++ (Nat.repr (findRunCounter ex stem fuel k0)).data) = false ∧
        ∀ j, k0 ≤ j → j < findRunCounter ex stem fuel k0 →
          ex (stem ++ (Nat.repr j).data) = true := by
  intro fuel
  induction fuel with
  | zero =>
    rintro k0 ⟨j, h1, h2, _⟩
    omega
  | succ fuel ih =>
    rintro k0 ⟨j, hj1, hj2, hj3⟩
    by_cases hex : ex (stem ++ (Nat.repr k0).data) = true
    · have hj0 : j ≠ k0 := by
        intro h
        rw [h] at hj3
        rw [hj3] at hex
        exact Bool.noConfusion hex
      have hstep : findRunCounter ex stem (fuel + 1) k0 =
          findRunCounter ex stem fuel (k0 + 1) := by
        simp only [findRunCounter]
        rw [if_pos hex]
      obtain ⟨h1, h2, h3⟩ := ih (k0 + 1) ⟨j, by omega, by omega, hj3⟩
      rw [hstep]
      refine ⟨by omega, h2, ?_⟩
      intro i hi1 hi2
      by_cases hik : i = k0
      · rw [hik]
        exact hex
      · exact h3 i (by omega) hi2
    · have hstep : findRunCounter ex stem (fuel + 1) k0 = k0 := by
        simp only [findRunCounter]
        rw [if_neg hex]
      rw [hstep]
      refine ⟨Nat.le_refl k0, ?_, ?_⟩
      · revert hex
        cases ex (stem ++ (Nat.repr k0).data) <;> simp
      · intro j hj1 hj2
        omega

/-- The auto-found counter is the least positive run number whose run
directory does not already exist. -/
theorem counter_least (fs : List (List Char)) (stem : List Char) :
    1 ≤ findRunCounter (fun s => decide (s ∈ fs)) stem (fs.length + 1) 1 ∧
      (stem ++ (Nat.repr (findRunCounter (fun s => decide (s ∈ fs)) stem
        (fs.length + 1) 1)).data) ∉ fs ∧
      ∀ j, 1 ≤ j → j < findRunCounter (fun s => decide (s ∈ fs)) stem (fs.length + 1) 1 →
        (stem ++ (Nat.repr j).data) ∈ fs := by
  obtain ⟨j, hj1, hj2, hj3⟩ := exists_fresh_run fs stem
  obtain ⟨h1, h2, h3⟩ := findRunCounter_least (fun s => decide (s ∈ fs)) stem
    (fs.length + 1) 1 ⟨j, hj1, by omega, by simpa using hj3⟩
  refine ⟨h1, by simpa using h2, ?_⟩
  intro i hi1 hi2
  simpa using h3 i hi1 hi2

/-- After a base that ends in `os.sep`, the kwargs / trailing-character
handling only ever extends the path: the result still starts with the base. -/
theorem dirTail_form (base : List Char) (kwargs : List (List Char × List Char))
    (h1 : base.getLast? = some '/') :
    ∃ rest, dirTail base kwargs = base ++ rest := by
  have hfold : kwargs.foldl (fun dd kv => dd ++ (kv.1 ++ kv.2 ++ "_".data)) base =
      base ++ (kwargs.map (fun kv => kv.1 ++ kv.2 ++ "_".data)).flatten :=
    foldl_append_eq_flatten _ kwargs base
  simp only [dirTail]
  rw [hfold]
  set T := (kwargs.map (fun kv => kv.1 ++ kv.2 ++ "_".data)).flatten
  by_cases hTnil : T = []
  · refine ⟨[], ?_⟩
    rw [hTnil]
    simp [h1]
  · have hlast : (base ++ T).getLast? = T.getLast? := List.getLast?_append_of_ne_nil _ hTnil
    have ho3 : (if (base ++ T).getLast? = some '_' then (base ++ T).dropLast else base ++ T) =
        base ++ (if T.getLast? = some '_' then T.dropLast else T) := by
      rw [hlast]
      by_cases hu : T.getLast? = some '_'
      · rw [if_pos hu, if_pos hu, List.dropLast_append_of_ne_nil _ hTnil]
      · rw [if_neg hu, if_neg hu]
    rw [ho3]
    by_cases hfin : (base ++ if T.getLast? = some '_' then T.dropLast else T).getLast? ≠ some '/'
    · rw [if_pos hfin]
      exact ⟨(if T.getLast? = some '_' then T.dropLast else T) ++ sep,
        by rw [List.append_assoc]⟩
    · rw [if_neg hfin]
      exact ⟨(if T.getLast? = some '_' then T.dropLast else T), rfl⟩

/-- The path returned by `makedirectory` extends the run-directory name
`stem + str(counter)` followed by the separator, so `os.makedirs` creates
that run directory. -/
theorem makedirectory_path_form (fs : List (List Char))
    (t o s d e : List Char) (counter : Option Nat)
    (kwargs : List (List Char × List Char)) :
    ∃ rest, (makedirectory fs t o s d e counter kwargs).2 =
      runStem t o s d e ++
        (Nat.repr (makedirectory fs t o s d e counter kwargs).1).data ++ sep ++ rest := by
  have h2 : (makedirectory fs t o s d e counter kwargs).2 =
      dirTail (runStem t o s d e ++
        (Nat.repr (makedirectory fs t o s d e counter kwargs).1).data ++ sep) kwargs := rfl
  obtain ⟨rest, hrest⟩ := dirTail_form
    (runStem t o s d e ++
      (Nat.repr (makedirectory fs t o s d e counter kwargs).1).data ++ sep)
    kwargs (List.getLast?_concat _)
  exact ⟨rest, h2.trans hrest⟩

/-- C8: with `counter=None`, `makedirectory` returns the smallest positive
integer `k` whose run directory (rootdir + stage + underscore + date +
underscore + eventlabel + `_run` + `k`) does not already exist, and the path
it creates extends that run directory; re-running the same configuration on
the same day, once that run directory exists, yields a different run number
instead of overwriting. -/
theorem makedirectory_least_counter (fs : List (List Char))
    (t o s d e : List Char) (kwargs : List (List Char × List Char)) :
    1 ≤ (makedirectory fs t o s d e none kwargs).1 ∧
    (runStem t o s d e ++
      (Nat.repr (makedirectory fs t o s d e none kwargs).1).data) ∉ fs ∧
    (∀ j, 1 ≤ j → j < (makedirectory fs t o s d e none kwargs).1 →
      (runStem t o s d e ++ (Nat.repr j).data) ∈ fs) ∧
    (∃ rest, (makedirectory fs t o s d e none kwargs).2 =
      runStem t o s d e ++
        (Nat.repr (makedirectory fs t o s d e none kwargs).1).data ++ sep ++ rest) ∧
    (makedirectory
        ((runStem t o s d e ++ (Nat.repr (makedirectory fs t o s d e none kwargs).1).data) :: fs)
        t o s d e none kwargs).1 ≠ (makedirectory fs t o s d e none kwargs).1 := by
  have hc : (makedirectory fs t o s d e none kwargs).1 =
      findRunCounter (fun str => decide (str ∈ fs)) (runStem t o s d e) (fs.length + 1) 1 :=
    rfl
  obtain ⟨h1, h2, h3⟩ := counter_least fs (runStem t o s d e)
  refine ⟨by rw [hc]; exact h1, by rw [hc]; exact h2, ?_,
    makedirectory_path_form fs t o s d e none kwargs, ?_⟩
  · intro j hj hjlt
    rw [hc] at hjlt
    exact h3 j hj hjlt
  · intro heq
    obtain ⟨h1b, h2b, h3b⟩ := counter_least
      ((runStem t o s d e ++ (Nat.repr (makedirectory fs t o s d e none kwargs).1).data) :: fs)
      (runStem t o s d e)
    have hc2 : (makedirectory
        ((runStem t o s d e ++ (Nat.repr (makedirectory fs t o s d e none kwargs).1).data) :: fs)
        t o s d e none kwargs).1 =
        findRunCounter (fun str => decide (str ∈
          ((runStem t o s d e ++ (Nat.repr (makedirectory fs t o s d e none kwargs).1).data) :: fs)))
          (runStem t o s d e)
          (((runStem t o s d e ++
            (Nat.repr (makedirectory fs t o s d e none kwargs).1).data) :: fs).length + 1) 1 :=
      rfl
    rw [hc2] at heq
    rw [heq] at h2b
    exact h2b (List.mem_cons_self _ _)

/-- Witness for C8 on an empty filesystem with no kwargs. -/
theorem makedirectory_least_counter_witness :
    1 ≤ (makedirectory [] "/r".data "o".data "S5".data "2022-05-10".data "ev".data none []).1 ∧
    (runStem "/r".data "o".data "S5".data "2022-05-10".data "ev".data ++
      (Nat.repr (makedirectory [] "/r".data "o".data "S5".data "2022-05-10".data "ev".data
        none []).1).data) ∉ ([] : List (List Char)) ∧
    (∀ j, 1 ≤ j →
      j < (makedirectory [] "/r".data "o".data "S5".data "2022-05-10".data "ev".data none []).1 →
      (runStem "/r".data "o".data "S5".data "2022-05-10".data "ev".data ++
        (Nat.repr j).data) ∈ ([] : List (List Char))) ∧
    (∃ rest, (makedirectory [] "/r".data "o".data "S5".data "2022-05-10".data "ev".data
        none []).2 =
      runStem "/r".data "o".data "S5".data "2022-05-10".data "ev".data ++
        (Nat.repr (makedirectory [] "/r".data "o".data "S5".data "2022-05-10".data "ev".data
          none []).1).data ++ sep ++ rest) ∧
    (makedirectory
        ((runStem "/r".data "o".data "S5".data "2022-05-10".data "ev".data ++
          (Nat.repr (makedirectory [] "/r".data "o".data "S5".data "2022-05-10".data "ev".data
            none []).1).data) :: [])
        "/r".data "o".data "S5".data "2022-05-10".data "ev".data none []).1 ≠
      (makedirectory [] "/r".data "o".data "S5".data "2022-05-10".data "ev".data none []).1 :=
  makedirectory_least_counter [] "/r".data "o".data "S5".data "2022-05-10".data "ev".data []

/-- C9: `pathdirectory`, applied to the run counter that `makedirectory`
returned for the same metadata (topdir, outputdir_raw, datetime,
eventlabel), stage and kwargs, rebuilds character for character the
directory path that `makedirectory` constructed, trailing separator
included. -/
theorem path_roundtrip (fs : List (List Char)) (t o s d e : List Char)
    (kwargs : List (List Char × List Char)) :
    pathdirectory t o s d e (makedirectory fs t o s d e none kwargs).1 kwargs =
      (makedirectory fs t o s d e none kwargs).2 := rfl

end Eureka
